import Mathlib

/-!
Verification of the `parrot` lyric generator (`src/parrot.py`).

The core pipeline is embedded shallowly:
* strings are `List Char`; `str.split(sep)` for a one-character separator is
  `List.splitOn`, `sep.join(xs)` is `List.intercalate`;
* `str.replace(old, new)` is only used with two-character patterns replaced by
  one character (`'\n\n' -> '\n'` and `'\n ' -> '\n'`), embedded as `replace2`
  (leftmost, non-overlapping, continue after the replacement — Python's
  semantics specialised to that shape);
* Python dicts with pair keys are association lists in insertion order
  (`Dist`); updating an existing key keeps its position, a new key goes to
  the end, exactly as Python dicts behave;
* `random.choice(seq)` is `pyChoice seq r` for an externally supplied random
  value `r`; the walk consumes one value of a stream `rand : Nat -> Nat` per
  `random.choice` call.  `random.choice` on an empty sequence raises
  `IndexError`; `' '.join(song)` raises `TypeError` when `song` contains
  `None`.  Fallible code returns `Except PyErr`.
-/

namespace Parrot

/-- `replace2 x y z s` replaces every occurrence of the two-character pattern
`[x, y]` in `s` by the single character `z`, scanning left to right,
non-overlapping, continuing after each replacement.  This is Python's
`s.replace(xy, z)` for a two-character pattern `xy`, as used on lines 72 and
133 of `parrot.py` (`'\n\n' -> '\n'` and `'\n ' -> '\n'`). -/
def replace2 (x y z : Char) : List Char → List Char
  | a :: b :: rest =>
    if a = x ∧ b = y then z :: replace2 x y z rest
    else a :: replace2 x y z (b :: rest)
  | s => s

/-- The literal trailing license sentinel `"(1409616144139)"` from line 74. -/
def sentinel : List Char :=
  ['(', '1', '4', '0', '9', '6', '1', '6', '1', '4', '4', '1', '3', '9', ')']

/-- Lines 74–76: if the last line is the license sentinel, drop the last four
lines (`lyrics[:-4]`). -/
def dropLicense (lines : List (List Char)) : List (List Char) :=
  if lines.getLast? = some sentinel then lines.take (lines.length - 4)
  else lines

/-- The per-song text normalisation of `get_lyrics_corpus` (lines 72–78):
collapse doubled line breaks, split into lines, drop the last four lines when
the last line is the license sentinel, and rejoin with `"\n "`. -/
def clean_lyrics (lyrics : List Char) : List Char :=
  List.intercalate ['\n', ' ']
    (dropLicense ((replace2 '\n' '\n' '\n' lyrics).splitOn '\n'))

/-- The pure part of `get_lyrics_corpus`: each raw lyric text of the corpus is
normalised by `clean_lyrics`.  (Network retrieval is outside the core.) -/
def get_lyrics_corpus (lyricsTexts : List (List Char)) : List (List Char) :=
  lyricsTexts.map clean_lyrics

/-- `Tokenize` of the spec: the `clean_lyrics` encoding followed by the
space-split that `build_distribution` performs on line 87. -/
def tokenize (lyrics : List Char) : List (List Char) :=
  (clean_lyrics lyrics).splitOn ' '

/-- `Decode` of the spec (line 133): join the tokens with a single space and
replace every `"\n "` by `"\n"`. -/
def decode (toks : List (List Char)) : List Char :=
  replace2 '\n' ' ' '\n' (List.intercalate [' '] toks)

/-- A Python dict from token pairs to successor lists, as an insertion-ordered
association list. -/
abbrev Dist (α : Type) := List ((α × α) × List α)

variable {α : Type} [DecidableEq α]

/-- `distribution[key].append(word)` resp. `distribution[key] = [word]`
(lines 98–101): an existing key keeps its position and gets `w` appended; a
missing key is inserted at the end with value `[w]`. -/
def distAppend (d : Dist α) (k : α × α) (w : α) : Dist α :=
  match d with
  | [] => [(k, [w])]
  | (k', v) :: rest =>
    if k' = k then (k', v ++ [w]) :: rest else (k', v) :: distAppend rest k w

/-- Dict lookup: `distribution[key]` when `key in distribution`. -/
def distLookup (d : Dist α) (k : α × α) : Option (List α) :=
  match d with
  | [] => none
  | (k', v) :: rest => if k' = k then some v else distLookup rest k

/-- The successor sequence stored for a key (empty when absent). -/
def succsOf (d : Dist α) (k : α × α) : List α :=
  (distLookup d k).getD []

/-- The inner loop of `build_distribution` (lines 95–104): slide the pair
window over the remaining words, appending each word under its preceding
pair. -/
def buildLoop (d : Dist α) (p1 p2 : α) (ws : List α) : Dist α :=
  match ws with
  | [] => d
  | w :: rest => buildLoop (distAppend d (p1, p2) w) p2 w rest

/-- One iteration of `build_distribution`'s outer loop (lines 86–104): songs
with fewer than 3 tokens are skipped (`if len(song) < 3: continue`, here the
catch-all arm); otherwise the pair window is seeded with the first two tokens
and the inner loop runs over `song[2:]`. -/
def buildSong (d : Dist α) (song : List α) : Dist α :=
  match song with
  | p1 :: p2 :: w :: rest => buildLoop d p1 p2 (w :: rest)
  | _ => d

/-- `build_distribution` on already-split token sequences. -/
def buildDist (toks : List (List α)) : Dist α :=
  toks.foldl buildSong []

/-- `build_distribution` (lines 83–106): split each song on spaces and fold
the songs into the distribution. -/
def build_distribution (corpus : List (List Char)) : Dist (List Char) :=
  buildDist (corpus.map (fun song => song.splitOn ' '))

/-- The Python exceptions the generator can raise: `IndexError` from
`random.choice` on an empty sequence, `TypeError` from `' '.join` on a list
containing `None`. -/
inductive PyErr where
  | indexError : PyErr
  | typeError : PyErr
deriving DecidableEq

/-- `random.choice(l)` driven by an external random value `r`: `none` exactly
when `l` is empty (the `IndexError` case), otherwise the element at
`r % l.length`. -/
def pyChoice (l : List α) (r : ℕ) : Option α :=
  l.get? (r % l.length)

/-- The main loop of `generate_song` (lines 116–131) plus the final flush
(line 131), over a fixed distribution, its key list `word_pairs`, and a random
stream.  Arguments: remaining iterations (`word_count - 1` initially), next
random-stream index, `word1`, `word2` (Python `None` is `none`), and the
accumulated `song` (entries are `Option` since Python appends `word2` even
when it is `None`). -/
def genLoop (dist : Dist α) (pairs : List (α × α)) (rand : ℕ → ℕ) :
    ℕ → ℕ → Option α → Option α → List (Option α) →
    Except PyErr (List (Option α))
  | 0, _, _, w2?, song => .ok (song ++ [w2?])
  | fuel + 1, n, w1?, w2?, song =>
    match (match w1? with
           | some w1 => Except.ok (w1, w2?, n)
           | none =>
             match pyChoice pairs (rand n) with
             | none => Except.error PyErr.indexError
             | some p => Except.ok (p.1, some p.2, n + 1) :
           Except PyErr (α × Option α × ℕ)) with
    | .error e => .error e
    | .ok (w1, w2x, n') =>
      match w2x with
      | none =>
        genLoop dist pairs rand fuel n' none none (song ++ [some w1] ++ [none])
      | some w2 =>
        match distLookup dist (w1, w2) with
        | none =>
          genLoop dist pairs rand fuel n' none (some w2)
            (song ++ [some w1] ++ [some w2])
        | some succs =>
          match pyChoice succs (rand n') with
          | none => .error .indexError
          | some w =>
            genLoop dist pairs rand fuel (n' + 1) (some w2) (some w)
              (song ++ [some w1])

/-- The chain walk of `generate_song` at the token level: `word_pairs` is the
key list in insertion order (line 111), both pending words start as `None`
(lines 112–113), the loop runs `word_count - 1` times (line 116). -/
def generate_tokens (dist : Dist α) (word_count : ℕ) (rand : ℕ → ℕ) :
    Except PyErr (List (Option α)) :=
  genLoop dist (dist.map Prod.fst) rand (word_count - 1) 0 none none []

/-- `' '.join` succeeds only when no entry is `None`. -/
def allSome : List (Option α) → Option (List α)
  | [] => some []
  | none :: _ => none
  | some x :: rest => (allSome rest).map (x :: ·)

/-- `generate_song` (lines 109–133): build the distribution, walk the chain,
then join with spaces and restore line breaks; joining a list containing
`None` raises `TypeError`. -/
def generate_song (corpus : List (List Char)) (word_count : ℕ)
    (rand : ℕ → ℕ) : Except PyErr (List Char) :=
  match generate_tokens (build_distribution corpus) word_count rand with
  | .error e => .error e
  | .ok song =>
    match allSome song with
    | none => .error .typeError
    | some toks => .ok (decode toks)

/-- Ghost instrumentation mirroring `genLoop` step for step, counting how many
iterations take the dead-end branch (the `else` of line 123, which appends an
extra token).  Used only to state the walk's length contract. -/
def deadEnds (dist : Dist α) (pairs : List (α × α)) (rand : ℕ → ℕ) :
    ℕ → ℕ → Option α → Option α → ℕ
  | 0, _, _, _ => 0
  | fuel + 1, n, w1?, w2? =>
    match (match w1? with
           | some w1 => Except.ok (w1, w2?, n)
           | none =>
             match pyChoice pairs (rand n) with
             | none => Except.error PyErr.indexError
             | some p => Except.ok (p.1, some p.2, n + 1) :
           Except PyErr (α × Option α × ℕ)) with
    | .error _ => 0
    | .ok (w1, w2x, n') =>
      match w2x with
      | none => 1 + deadEnds dist pairs rand fuel n' none none
      | some w2 =>
        match distLookup dist (w1, w2) with
        | none => 1 + deadEnds dist pairs rand fuel n' none (some w2)
        | some succs =>
          match pyChoice succs (rand n') with
          | none => 0
          | some w => deadEnds dist pairs rand fuel (n' + 1) (some w2) (some w)

/-- Dead-end transitions taken by a full `generate_tokens` run. -/
def deadEndCount (dist : Dist α) (word_count : ℕ) (rand : ℕ → ℕ) : ℕ :=
  deadEnds dist (dist.map Prod.fst) rand (word_count - 1) 0 none none

/-- The successors of the pair `(p1, p2)` inside one token sequence, in order
of occurrence: one entry for every position where `p1, p2` occur consecutively
followed by at least one more token. -/
def succsIn (p1 p2 : α) : List α → List α
  | x :: y :: z :: rest =>
    (if x = p1 ∧ y = p2 then [z] else []) ++ succsIn p1 p2 (y :: z :: rest)
  | _ => []

/-! ### Helper lemmas about `List.intercalate` -/

lemma intercalateNil (sep : List Char) : List.intercalate sep [] = [] := rfl

lemma intercalateSingle (sep l : List Char) : List.intercalate sep [l] = l := by
  simp [List.intercalate]

lemma intercalateCons₂ (sep l l' : List Char) (L : List (List Char)) :
    List.intercalate sep (l :: l' :: L) =
      l ++ sep ++ List.intercalate sep (l' :: L) := by
  simp [List.intercalate]

lemma intercalate_cons_exists (sep l : List Char) (L : List (List Char)) :
    ∃ r, List.intercalate sep (l :: L) = l ++ r := by
  cases L with
  | nil => exact ⟨[], by rw [intercalateSingle, List.append_nil]⟩
  | cons l' L' =>
    exact ⟨sep ++ List.intercalate sep (l' :: L'),
      by rw [intercalateCons₂, List.append_assoc]⟩

/-! ### Helper lemmas about `replace2` -/

lemma replace2_cons₂_pos (x y z : Char) (rest : List Char) :
    replace2 x y z (x :: y :: rest) = z :: replace2 x y z rest := by
  simp [replace2]

lemma replace2_cons₂_neg (x y z a b : Char) (rest : List Char)
    (h : ¬(a = x ∧ b = y)) :
    replace2 x y z (a :: b :: rest) = a :: replace2 x y z (b :: rest) := by
  rw [replace2, if_neg h]

lemma replace2_eq_self_of_not_infix {x y z : Char} {s : List Char}
    (h : ¬ [x, y] <:+: s) : replace2 x y z s = s := by
  induction s using replace2.induct x y z with
  | case1 a b rest hab ih =>
    rcases hab with ⟨rfl, rfl⟩
    exact absurd ⟨[], rest, rfl⟩ h
  | case2 a b rest hab ih =>
    rw [replace2_cons₂_neg x y z a b rest hab,
      ih (fun hi => h (List.infix_cons hi))]
  | case3 s hs =>
    match s, hs with
    | [], _ => rfl
    | [a], _ => rfl
    | a :: b :: rest, hs => exact absurd rfl (hs a b rest)

lemma replace2_append {x y z : Char} {p : List Char} (s : List Char)
    (hx : x ∉ p) : replace2 x y z (p ++ s) = p ++ replace2 x y z s := by
  induction p with
  | nil => rfl
  | cons a p' ih =>
    have hax : ¬ a = x := fun h => hx (h ▸ List.mem_cons_self a p')
    have hx' : x ∉ p' := fun h => hx (List.mem_cons_of_mem _ h)
    rw [List.cons_append]
    cases hps : p' ++ s with
    | nil =>
      rcases List.append_eq_nil.mp hps with ⟨rfl, rfl⟩
      rfl
    | cons b r =>
      rw [replace2_cons₂_neg x y z a b r (fun hh => hax hh.1), ← hps, ih hx']
      rfl

lemma replace2_intercalate (x y : Char) (L : List (List Char))
    (h : ∀ l ∈ L, x ∉ l) :
    replace2 x y x (List.intercalate [x, y] L) = List.intercalate [x] L := by
  induction L with
  | nil => rfl
  | cons l L' ih =>
    cases L' with
    | nil =>
      rw [intercalateSingle, intercalateSingle]
      refine replace2_eq_self_of_not_infix (fun hi => ?_)
      exact h l (List.mem_cons_self l []) (hi.subset (List.mem_cons_self x [y]))
    | cons l' L'' =>
      rw [intercalateCons₂, intercalateCons₂, List.append_assoc,
        replace2_append _ (h l (List.mem_cons_self l _))]
      have : ([x, y] : List Char) ++ List.intercalate [x, y] (l' :: L'') =
          x :: y :: List.intercalate [x, y] (l' :: L'') := rfl
      rw [this, replace2_cons₂_pos,
        ih (fun m hm => h m (List.mem_cons_of_mem _ hm)), List.append_assoc]
      rfl

/-! ### No doubled separator inside an intercalation of nonempty chunks -/

lemma double_infix_drop_left {x : Char} {p s : List Char} (hx : x ∉ p)
    (h : [x, x] <:+: p ++ s) : [x, x] <:+: s := by
  obtain ⟨u, v, huv⟩ := h
  have huv' : u ++ ([x, x] ++ v) = p ++ s := by
    rw [← List.append_assoc]
    exact huv
  rcases List.append_eq_append_iff.mp huv' with ⟨a', ha1, ha2⟩ | ⟨c', hc1, hc2⟩
  · cases a' with
    | nil =>
      exact ⟨[], v, by simpa using ha2⟩
    | cons b a'' =>
      have ha2' : x :: x :: v = b :: (a'' ++ s) := ha2
      have hbx : x = b := (List.cons.inj ha2').1
      exact absurd (ha1 ▸ List.mem_append_right u (hbx ▸ List.mem_cons_self b a''))
        hx
  · exact ⟨c', v, by rw [List.append_assoc]; exact hc2.symm⟩

lemma double_infix_cons {x : Char} {m : List Char} (h : [x, x] <:+: x :: m) :
    (∃ m', m = x :: m') ∨ [x, x] <:+: m := by
  obtain ⟨u, v, huv⟩ := h
  cases u with
  | nil =>
    left
    exact ⟨v, by simpa using huv.symm⟩
  | cons a u' =>
    right
    have huv' : a :: (u' ++ [x, x] ++ v) = x :: m := by
      rw [← List.cons_append, ← List.cons_append]
      exact huv
    exact ⟨u', v, (List.cons.inj huv').2⟩

lemma not_double_infix_intercalate {x : Char} {L : List (List Char)}
    (hne : ∀ l ∈ L, l ≠ []) (hx : ∀ l ∈ L, x ∉ l) :
    ¬ [x, x] <:+: List.intercalate [x] L := by
  induction L with
  | nil =>
    intro h
    rw [intercalateNil] at h
    simpa using List.infix_nil.mp h
  | cons l L' ih =>
    cases L' with
    | nil =>
      intro h
      rw [intercalateSingle] at h
      exact hx l (List.mem_cons_self l []) (h.subset (List.mem_cons_self x [x]))
    | cons l' L'' =>
      intro h
      rw [intercalateCons₂, List.append_assoc] at h
      have h2 : [x, x] <:+: x :: List.intercalate [x] (l' :: L'') :=
        double_infix_drop_left (hx l (List.mem_cons_self l _)) h
      rcases double_infix_cons h2 with ⟨m', hm⟩ | h3
      · obtain ⟨r, hr⟩ := intercalate_cons_exists [x] l' L''
        cases hl' : l' with
        | nil => exact hne l' (List.mem_cons_of_mem _ (List.mem_cons_self l' _)) hl'
        | cons a t =>
          have hax : x = a := by
            have h4 : l' ++ r = x :: m' := hr ▸ hm
            rw [hl', List.cons_append] at h4
            exact ((List.cons.inj h4.symm).1)
          exact hx l' (List.mem_cons_of_mem _ (List.mem_cons_self l' _))
            (hl' ▸ (hax ▸ List.mem_cons_self a t))
      · exact ih (fun m hm => hne m (List.mem_cons_of_mem _ hm))
          (fun m hm => hx m (List.mem_cons_of_mem _ hm)) h3

/-! ### Chunks of `splitOn` never contain the separator -/

lemma not_mem_of_mem_splitOnP {β : Type} (p : β → Bool) (s : List β) :
    ∀ l ∈ s.splitOnP p, ∀ a ∈ l, ¬ p a := by
  induction s with
  | nil =>
    intro l hl a ha
    rw [List.splitOnP_nil, List.mem_singleton] at hl
    subst hl
    simp at ha
  | cons x xs ih =>
    intro l hl a ha
    rw [List.splitOnP_cons] at hl
    by_cases hp : p x
    · rw [if_pos hp] at hl
      rcases List.mem_cons.mp hl with rfl | hl'
      · simp at ha
      · exact ih l hl' a ha
    · rw [if_neg hp] at hl
      cases hsp : xs.splitOnP p with
      | nil => exact absurd hsp (List.splitOnP_ne_nil p xs)
      | cons hd t =>
        rw [hsp, List.modifyHead_cons] at hl
        rcases List.mem_cons.mp hl with rfl | hl'
        · rcases List.mem_cons.mp ha with rfl | ha'
          · exact hp
          · exact ih hd (hsp ▸ List.mem_cons_self hd t) a ha'
        · exact ih l (hsp ▸ List.mem_cons_of_mem hd hl') a ha

lemma not_mem_of_mem_splitOn {c : Char} {s l : List Char}
    (hl : l ∈ s.splitOn c) : c ∉ l := by
  intro hc
  have hns : l ∈ s.splitOnP (· == c) := by
    rw [List.splitOn] at hl
    exact hl
  have := not_mem_of_mem_splitOnP (· == c) s l hns c hc
  simp at this

/-! ### The round trip of `Decode` after `Tokenize` -/

lemma clean_lyrics_of_plain (text : List Char)
    (h1 : ∀ l ∈ text.splitOn '\n', ¬ ∀ a ∈ l, a = ' ')
    (h2 : (text.splitOn '\n').getLast? ≠ some sentinel) :
    clean_lyrics text = List.intercalate ['\n', ' '] (text.splitOn '\n') := by
  have hne : ∀ l ∈ text.splitOn '\n', l ≠ [] := by
    intro l hl he
    exact h1 l hl (by simp [he])
  have hnm : ∀ l ∈ text.splitOn '\n', '\n' ∉ l := fun l hl =>
    not_mem_of_mem_splitOn hl
  have hcollapse : replace2 '\n' '\n' '\n' text = text := by
    apply replace2_eq_self_of_not_infix
    intro hinf
    refine not_double_infix_intercalate hne hnm ?_
    rwa [List.intercalate_splitOn]
  rw [clean_lyrics, hcollapse, dropLicense, if_neg h2]

/-- C5: for every text containing no space-only lines (no line all of whose
characters are spaces — in particular no empty line, so no doubled line
break) and whose last line is not the license sentinel, decoding the
tokenized form reproduces the text exactly: `Decode (Tokenize text) = text`. -/
theorem claim_C5 (text : List Char)
    (h1 : ∀ l ∈ text.splitOn '\n', ¬ ∀ a ∈ l, a = ' ')
    (h2 : (text.splitOn '\n').getLast? ≠ some sentinel) :
    decode (tokenize text) = text := by
  have hnm : ∀ l ∈ text.splitOn '\n', '\n' ∉ l := fun l hl =>
    not_mem_of_mem_splitOn hl
  rw [tokenize, clean_lyrics_of_plain text h1 h2, decode,
    List.intercalate_splitOn, replace2_intercalate '\n' ' ' _ hnm,
    List.intercalate_splitOn]

/-! ### Facts about the distribution builder -/

lemma distAppend_ne_nil (d : Dist α) (k : α × α) (w : α) :
    distAppend d k w ≠ [] := by
  cases d with
  | nil => simp [distAppend]
  | cons kv rest =>
    obtain ⟨k', v⟩ := kv
    rw [distAppend]
    split <;> simp

lemma buildLoop_ne_nil {d : Dist α} (hd : d ≠ []) (p1 p2 : α) (ws : List α) :
    buildLoop d p1 p2 ws ≠ [] := by
  induction ws generalizing d p1 p2 with
  | nil => exact hd
  | cons w rest ih => exact ih (distAppend_ne_nil d (p1, p2) w) p2 w

lemma buildSong_ne_nil {d : Dist α} {song : List α}
    (h : d ≠ [] ∨ 3 ≤ song.length) : buildSong d song ≠ [] := by
  rcases song with _ | ⟨p1, _ | ⟨p2, _ | ⟨w, rest⟩⟩⟩
  · exact h.resolve_right (by simp)
  · exact h.resolve_right (by simp)
  · exact h.resolve_right (by simp)
  · exact buildLoop_ne_nil (distAppend_ne_nil d (p1, p2) w) p2 w rest

lemma foldl_buildSong_ne_nil {toks : List (List α)} {d : Dist α}
    (hd : d ≠ []) : toks.foldl buildSong d ≠ [] := by
  induction toks generalizing d with
  | nil => exact hd
  | cons s rest ih => exact ih (buildSong_ne_nil (Or.inl hd))

lemma buildSong_eq_of_short {d : Dist α} {song : List α}
    (h : song.length < 3) : buildSong d song = d := by
  rcases song with _ | ⟨p1, _ | ⟨p2, _ | ⟨w, rest⟩⟩⟩
  · rfl
  · rfl
  · rfl
  · simp only [List.length_cons] at h
    omega

lemma foldl_buildSong_filter (toks : List (List α)) (d : Dist α) :
    toks.foldl buildSong d =
      (toks.filter (fun s => decide (3 ≤ s.length))).foldl buildSong d := by
  induction toks generalizing d with
  | nil => rfl
  | cons s rest ih =>
    rw [List.foldl_cons, List.filter_cons]
    by_cases h : 3 ≤ s.length
    · rw [if_pos (by simpa using h), List.foldl_cons, ih]
    · rw [if_neg (by simpa using h), buildSong_eq_of_short (by omega), ih]

lemma mem_distAppend {d : Dist α} {k : α × α} {w : α} {kv : (α × α) × List α}
    (h : kv ∈ distAppend d k w) : kv ∈ d ∨ kv.1 = k := by
  induction d with
  | nil =>
    rw [distAppend, List.mem_singleton] at h
    right
    rw [h]
  | cons kv' rest ih =>
    obtain ⟨k', v⟩ := kv'
    rw [distAppend] at h
    by_cases hk : k' = k
    · rw [if_pos hk] at h
      rcases List.mem_cons.mp h with rfl | h'
      · right
        exact hk
      · left
        exact List.mem_cons_of_mem _ h'
    · rw [if_neg hk] at h
      rcases List.mem_cons.mp h with rfl | h'
      · left
        exact List.mem_cons_self _ _
      · rcases ih h' with h'' | h''
        · left
          exact List.mem_cons_of_mem _ h''
        · right
          exact h''

lemma mem_buildLoop {ws : List α} {p1 p2 : α} {d : Dist α}
    {kv : (α × α) × List α} (h : kv ∈ buildLoop d p1 p2 ws) :
    kv ∈ d ∨ ∃ w', [kv.1.1, kv.1.2, w'] <:+: p1 :: p2 :: ws := by
  induction ws generalizing d p1 p2 with
  | nil => exact Or.inl h
  | cons w rest ih =>
    rw [buildLoop] at h
    rcases ih h with h' | ⟨w', hw⟩
    · rcases mem_distAppend h' with h'' | h''
      · exact Or.inl h''
      · exact Or.inr ⟨w, [], rest, by simp [h'']⟩
    · exact Or.inr ⟨w', List.infix_cons hw⟩

lemma mem_buildSong {d : Dist α} {song : List α} {kv : (α × α) × List α}
    (h : kv ∈ buildSong d song) :
    kv ∈ d ∨ ∃ w', [kv.1.1, kv.1.2, w'] <:+: song := by
  rcases song with _ | ⟨p1, _ | ⟨p2, _ | ⟨w, rest⟩⟩⟩
  · exact Or.inl h
  · exact Or.inl h
  · exact Or.inl h
  · exact mem_buildLoop h

lemma mem_foldl_buildSong {toks : List (List α)} {d : Dist α}
    {kv : (α × α) × List α} (h : kv ∈ toks.foldl buildSong d) :
    kv ∈ d ∨ ∃ s ∈ toks, ∃ w', [kv.1.1, kv.1.2, w'] <:+: s := by
  induction toks generalizing d with
  | nil => exact Or.inl h
  | cons s rest ih =>
    rcases ih h with h' | ⟨s', hs', hw⟩
    · rcases mem_buildSong h' with h'' | hw
      · exact Or.inl h''
      · exact Or.inr ⟨s, List.mem_cons_self _ _, hw⟩
    · exact Or.inr ⟨s', List.mem_cons_of_mem _ hs', hw⟩

lemma distAppend_vals {d : Dist α} (hv : ∀ kv ∈ d, kv.2 ≠ [])
    (k : α × α) (w : α) : ∀ kv ∈ distAppend d k w, kv.2 ≠ [] := by
  induction d with
  | nil =>
    intro kv hkv
    rw [distAppend, List.mem_singleton] at hkv
    subst hkv
    simp
  | cons kv' rest ih =>
    obtain ⟨k', v⟩ := kv'
    intro kv hkv
    rw [distAppend] at hkv
    by_cases hk : k' = k
    · rw [if_pos hk] at hkv
      rcases List.mem_cons.mp hkv with rfl | h'
      · simp
      · exact hv kv (List.mem_cons_of_mem _ h')
    · rw [if_neg hk] at hkv
      rcases List.mem_cons.mp hkv with rfl | h'
      · exact hv _ (List.mem_cons_self _ _)
      · exact ih (fun kv2 h2 => hv kv2 (List.mem_cons_of_mem _ h2)) kv h'

lemma buildLoop_vals {ws : List α} {p1 p2 : α} {d : Dist α}
    (hv : ∀ kv ∈ d, kv.2 ≠ []) : ∀ kv ∈ buildLoop d p1 p2 ws, kv.2 ≠ [] := by
  induction ws generalizing d p1 p2 with
  | nil => exact hv
  | cons w rest ih => exact ih (distAppend_vals hv (p1, p2) w)

lemma buildSong_vals {d : Dist α} {song : List α}
    (hv : ∀ kv ∈ d, kv.2 ≠ []) : ∀ kv ∈ buildSong d song, kv.2 ≠ [] := by
  rcases song with _ | ⟨p1, _ | ⟨p2, _ | ⟨w, rest⟩⟩⟩
  · exact hv
  · exact hv
  · exact hv
  · exact buildLoop_vals hv

lemma buildDist_vals (toks : List (List α)) :
    ∀ kv ∈ buildDist toks, kv.2 ≠ [] := by
  have key : ∀ (ts : List (List α)) (d : Dist α), (∀ kv ∈ d, kv.2 ≠ []) →
      ∀ kv ∈ ts.foldl buildSong d, kv.2 ≠ [] := by
    intro ts
    induction ts with
    | nil => exact fun d hv => hv
    | cons s rest ih => exact fun d hv => ih _ (buildSong_vals hv)
  exact key toks [] (by simp)

/-! ### The successor sequences of the built distribution -/

lemma succsOf_cons (a : α × α) (v : List α) (rest : Dist α) (k : α × α) :
    succsOf ((a, v) :: rest) k = if a = k then v else succsOf rest k := by
  rw [succsOf, distLookup]
  by_cases h : a = k
  · rw [if_pos h, if_pos h]
    rfl
  · rw [if_neg h, if_neg h]
    rfl

lemma succsOf_distAppend (d : Dist α) (k' k : α × α) (w : α) :
    succsOf (distAppend d k' w) k =
      succsOf d k ++ if k' = k then [w] else [] := by
  induction d with
  | nil =>
    by_cases h : k' = k <;> simp [distAppend, succsOf, distLookup, h]
  | cons kv rest ih =>
    obtain ⟨k'', v⟩ := kv
    rw [distAppend]
    by_cases h1 : k'' = k'
    · rw [if_pos h1, succsOf_cons, succsOf_cons]
      by_cases h2 : k'' = k
      · rw [if_pos h2, if_pos h2, if_pos (h1.symm.trans h2)]
      · rw [if_neg h2, if_neg h2, if_neg (fun hh => h2 (h1.trans hh)),
          List.append_nil]
    · rw [if_neg h1, succsOf_cons, succsOf_cons]
      by_cases h2 : k'' = k
      · rw [if_pos h2, if_pos h2, if_neg (fun hh => h1 (h2.trans hh.symm)),
          List.append_nil]
      · rw [if_neg h2, if_neg h2]
        exact ih

lemma succsIn_cons₃ (p1 p2 x y z : α) (rest : List α) :
    succsIn p1 p2 (x :: y :: z :: rest) =
      (if x = p1 ∧ y = p2 then [z] else []) ++ succsIn p1 p2 (y :: z :: rest) :=
  rfl

lemma succsOf_buildLoop (ws : List α) (p1 p2 : α) (d : Dist α) (k : α × α) :
    succsOf (buildLoop d p1 p2 ws) k =
      succsOf d k ++ succsIn k.1 k.2 (p1 :: p2 :: ws) := by
  induction ws generalizing d p1 p2 with
  | nil => simp [buildLoop, succsIn]
  | cons w rest ih =>
    rw [buildLoop, ih, succsOf_distAppend, List.append_assoc, succsIn_cons₃]
    congr 1
    by_cases h : p1 = k.1 ∧ p2 = k.2
    · rw [if_pos (Prod.ext_iff.mpr ⟨h.1, h.2⟩), if_pos h]
    · rw [if_neg (fun hk => h ⟨congrArg Prod.fst hk, congrArg Prod.snd hk⟩),
        if_neg h]

lemma succsOf_buildSong (song : List α) (d : Dist α) (k : α × α) :
    succsOf (buildSong d song) k = succsOf d k ++ succsIn k.1 k.2 song := by
  rcases song with _ | ⟨p1, _ | ⟨p2, _ | ⟨w, rest⟩⟩⟩
  · exact (List.append_nil _).symm
  · exact (List.append_nil _).symm
  · exact (List.append_nil _).symm
  · exact succsOf_buildLoop (w :: rest) p1 p2 d k

lemma succsOf_foldl (toks : List (List α)) (d : Dist α) (k : α × α) :
    succsOf (toks.foldl buildSong d) k =
      succsOf d k ++ (toks.map (succsIn k.1 k.2)).flatten := by
  induction toks generalizing d with
  | nil => simp
  | cons s rest ih =>
    rw [List.foldl_cons, ih, succsOf_buildSong, List.map_cons,
      List.flatten_cons, List.append_assoc]

lemma succsOf_buildDist (toks : List (List α)) (k : α × α) :
    succsOf (buildDist toks) k = (toks.map (succsIn k.1 k.2)).flatten := by
  rw [buildDist, succsOf_foldl]
  rfl

lemma distLookup_mem {d : Dist α} {k : α × α} {v : List α}
    (h : distLookup d k = some v) : (k, v) ∈ d := by
  induction d with
  | nil => simp [distLookup] at h
  | cons kv rest ih =>
    obtain ⟨k', v'⟩ := kv
    rw [distLookup] at h
    by_cases hk : k' = k
    · rw [if_pos hk] at h
      rw [← hk, ← Option.some.inj h]
      exact List.mem_cons_self _ _
    · rw [if_neg hk] at h
      exact List.mem_cons_of_mem _ (ih h)

/-- C6: the Distribution of any corpus satisfies the three invariants: a
PairKey is present only if its two tokens occur consecutively in some song
immediately followed by one more token of that song; songs with fewer than 3
tokens contribute nothing (the distribution equals the one built from only
the songs with at least 3 tokens); and every stored successor sequence is
non-empty. -/
theorem claim_C6 (corpus : List (List Char)) :
    (∀ kv ∈ build_distribution corpus,
        ∃ song ∈ corpus, ∃ w, [kv.1.1, kv.1.2, w] <:+: song.splitOn ' ') ∧
    build_distribution corpus =
      buildDist ((corpus.map (fun song => song.splitOn ' ')).filter
        (fun song => decide (3 ≤ song.length))) ∧
    ∀ kv ∈ build_distribution corpus, kv.2 ≠ [] := by
  refine ⟨?_, ?_, buildDist_vals _⟩
  · intro kv hkv
    rcases mem_foldl_buildSong hkv with h | ⟨s, hs, w', hw⟩
    · simp at h
    · obtain ⟨song, hsong, rfl⟩ := List.mem_map.mp hs
      exact ⟨song, hsong, w', hw⟩
  · rw [build_distribution, buildDist, buildDist]
    exact foldl_buildSong_filter _ _

/-- C7: a non-empty corpus all of whose songs split into at least 3 tokens
yields a non-empty Distribution. -/
theorem claim_C7 (corpus : List (List Char)) (hne : corpus ≠ [])
    (h3 : ∀ song ∈ corpus, 3 ≤ (song.splitOn ' ').length) :
    build_distribution corpus ≠ [] := by
  cases corpus with
  | nil => exact absurd rfl hne
  | cons s rest =>
    show (rest.map (fun song => song.splitOn ' ')).foldl buildSong
      (buildSong [] (s.splitOn ' ')) ≠ []
    exact foldl_buildSong_ne_nil
      (buildSong_ne_nil (Or.inr (h3 s (List.mem_cons_self s rest))))

/-- Witness for C7 at the one-song corpus `["a b c"]`. -/
theorem claim_C7_witness :
    (([['a', ' ', 'b', ' ', 'c']] : List (List Char)) ≠ [] ∧
      (∀ song ∈ ([['a', ' ', 'b', ' ', 'c']] : List (List Char)),
        3 ≤ (song.splitOn ' ').length)) ∧
    build_distribution [['a', ' ', 'b', ' ', 'c']] ≠ [] :=
  ⟨⟨by decide, by decide⟩, claim_C7 _ (by decide) (by decide)⟩

/-- C8: the successor sequence stored under any key of the built Distribution
is the concatenation, in corpus order and in within-song order of occurrence,
of the successors of that pair (insertion order); hence a token that occurred
`N` times immediately after the pair appears exactly `N` times in it
(frequency encoding). -/
theorem claim_C8 (corpus : List (List Char)) (p1 p2 : List Char)
    (_hmem : (p1, p2) ∈ (build_distribution corpus).map Prod.fst) :
    succsOf (build_distribution corpus) (p1, p2) =
      ((corpus.map (fun song => song.splitOn ' ')).map (succsIn p1 p2)).flatten ∧
    ∀ w, (succsOf (build_distribution corpus) (p1, p2)).count w =
      ((corpus.map (fun song => song.splitOn ' ')).map
        (fun song => (succsIn p1 p2 song).count w)).sum := by
  have h1 : succsOf (build_distribution corpus) (p1, p2) =
      ((corpus.map (fun song => song.splitOn ' ')).map
        (succsIn p1 p2)).flatten := by
    rw [build_distribution, succsOf_buildDist]
  refine ⟨h1, fun w => ?_⟩
  rw [h1, List.count_flatten, List.map_map]
  rfl

/-- Witness for C8 at the corpus `["a b c a b c"]` and the pair `(a, b)`,
whose successor `c` occurs twice. -/
theorem claim_C8_witness :
    ((['a'], ['b']) ∈
      (build_distribution
        [['a', ' ', 'b', ' ', 'c', ' ', 'a', ' ', 'b', ' ', 'c']]).map
        Prod.fst ∧
      succsOf
        (build_distribution
          [['a', ' ', 'b', ' ', 'c', ' ', 'a', ' ', 'b', ' ', 'c']])
        (['a'], ['b']) = [['c'], ['c']]) ∧
    (∀ w, (succsOf
        (build_distribution
          [['a', ' ', 'b', ' ', 'c', ' ', 'a', ' ', 'b', ' ', 'c']])
        (['a'], ['b'])).count w =
      (([['a', ' ', 'b', ' ', 'c', ' ', 'a', ' ', 'b', ' ', 'c']].map
        (fun song => song.splitOn ' ')).map
        (fun song => (succsIn ['a'] ['b'] song).count w)).sum) :=
  ⟨⟨by decide, by decide⟩,
    (claim_C8 [['a', ' ', 'b', ' ', 'c', ' ', 'a', ' ', 'b', ' ', 'c']]
      ['a'] ['b'] (by decide)).2⟩

/-! ### Behaviour of the chain walk -/

/-- Each iteration of the walk appends one token (`word1`), a dead-end
iteration appends a second one (`word2`), and the final flush appends one
more: the output length is the initial length plus `fuel + 1` plus the
number of dead ends taken. -/
lemma genLoop_length (dist : Dist α) (pairs : List (α × α)) (rand : ℕ → ℕ) :
    ∀ (fuel n : ℕ) (w1? w2? : Option α) (song out : List (Option α)),
      genLoop dist pairs rand fuel n w1? w2? song = .ok out →
      out.length = song.length + fuel + 1 +
        deadEnds dist pairs rand fuel n w1? w2? := by
  intro fuel
  induction fuel with
  | zero =>
    intro n w1? w2? song out h
    simp only [genLoop, Except.ok.injEq] at h
    subst h
    simp [deadEnds]
  | succ fuel ih =>
    intro n w1? w2? song out h
    cases w1? with
    | none =>
      cases hc : pyChoice pairs (rand n) with
      | none => simp [genLoop, hc] at h
      | some p =>
        simp only [genLoop, hc] at h
        simp only [deadEnds, hc]
        cases hl : distLookup dist (p.1, p.2) with
        | none =>
          simp only [hl] at h ⊢
          have hr := ih _ _ _ _ _ h
          simp only [List.length_append, List.length_cons, List.length_nil]
            at hr ⊢
          omega
        | some succs =>
          cases hp : pyChoice succs (rand (n + 1)) with
          | none => simp [hl, hp] at h
          | some w =>
            simp only [hl, hp] at h ⊢
            have hr := ih _ _ _ _ _ h
            simp only [List.length_append, List.length_cons, List.length_nil]
              at hr ⊢
            omega
    | some w1 =>
      simp only [genLoop] at h
      simp only [deadEnds]
      cases w2? with
      | none =>
        have hr := ih _ _ _ _ _ h
        simp only [List.length_append, List.length_cons, List.length_nil]
          at hr ⊢
        omega
      | some w2 =>
        cases hl : distLookup dist (w1, w2) with
        | none =>
          simp only [hl] at h ⊢
          have hr := ih _ _ _ _ _ h
          simp only [List.length_append, List.length_cons, List.length_nil]
            at hr ⊢
          omega
        | some succs =>
          cases hp : pyChoice succs (rand n) with
          | none => simp [hl, hp] at h
          | some w =>
            simp only [hl, hp] at h ⊢
            have hr := ih _ _ _ _ _ h
            simp only [List.length_append, List.length_cons, List.length_nil]
              at hr ⊢
            omega

/-- C2: for a non-empty Distribution and `token_count ≥ 1`, a completed walk
produces exactly `token_count` tokens plus one extra token for each dead-end
transition taken. -/
theorem claim_C2 {β : Type} [DecidableEq β] (dist : Dist β) (word_count : ℕ)
    (rand : ℕ → ℕ) (out : List (Option β)) (_hd : dist ≠ [])
    (hwc : 1 ≤ word_count)
    (h : generate_tokens dist word_count rand = .ok out) :
    out.length = word_count + deadEndCount dist word_count rand := by
  have hr := genLoop_length dist (dist.map Prod.fst) rand (word_count - 1) 0
    none none [] out h
  rw [deadEndCount]
  simp only [List.length_nil] at hr
  omega

/-- Witness for C2 on the Scenario-B run: `token_count = 3`, one dead end,
output length 4. -/
theorem claim_C2_witness :
    (([(((0 : ℕ), 1), [2, 3])] : Dist ℕ) ≠ [] ∧ 1 ≤ 3 ∧
      generate_tokens [(((0 : ℕ), 1), [2, 3])] 3 (fun _ => 0) =
        .ok [some 0, some 1, some 2, some 2]) ∧
    ([some (0 : ℕ), some 1, some 2, some 2].length =
      3 + deadEndCount [(((0 : ℕ), 1), [2, 3])] 3 (fun _ => 0)) :=
  ⟨⟨by decide, by decide, rfl⟩,
    claim_C2 [(((0 : ℕ), 1), [2, 3])] 3 (fun _ => 0) _ (by decide) (by decide)
      rfl⟩

/-- C9: with `word_count = 1` the main loop runs zero times, the final flush
appends the still-`None` pending second token, and the join fails with
`TypeError` — for every corpus, even one with a non-empty Distribution. -/
theorem claim_C9 (corpus : List (List Char)) (rand : ℕ → ℕ) :
    generate_tokens (build_distribution corpus) 1 rand = .ok [none] ∧
    generate_song corpus 1 rand = .error PyErr.typeError :=
  ⟨rfl, rfl⟩

/-- C3 (Scenario B): on the Distribution `{(a,b): [c,d]}` with forced start
pair `(a,b)`, forced sample `c` and `token_count = 3`, the walk emits
`[a, b, c, c]`: the dead end at `(b,c)` appends the pending second token `c`
and clears only `word1`, so the final flush re-emits the uncleared `c`. -/
theorem claim_C3 {β : Type} [DecidableEq β] (a b c d : β)
    (h : (b, c) ≠ (a, b)) :
    generate_tokens [((a, b), [c, d])] 3 (fun _ => 0) =
      .ok [some a, some b, some c, some c] := by
  simp [generate_tokens, genLoop, pyChoice, distLookup, Ne.symm h]

/-- Witness for C3 at the tokens `0, 1, 2, 3`. -/
theorem claim_C3_witness :
    (((1 : ℕ), (2 : ℕ)) ≠ ((0 : ℕ), (1 : ℕ)) ∧
      generate_tokens [(((0 : ℕ), 1), [2, 3])] 3 (fun _ => 0) =
        .ok [some 0, some 1, some 2, some 2]) :=
  ⟨by decide, claim_C3 0 1 2 3 (by decide)⟩

/-- C4 (Scenario A): the single song `[a,b,c,d,e]` builds the Distribution
`{(a,b): [c], (b,c): [d], (c,d): [e]}`, and with forced start `(a,b)` and
`token_count = 4` the walk yields `[a, b, c, e]` with no dead end. -/
theorem claim_C4 {β : Type} [DecidableEq β] (a b c d e : β)
    (h1 : (a, b) ≠ (b, c)) (h2 : (a, b) ≠ (c, d)) (h3 : (b, c) ≠ (c, d)) :
    buildDist [[a, b, c, d, e]] =
      [((a, b), [c]), ((b, c), [d]), ((c, d), [e])] ∧
    generate_tokens (buildDist [[a, b, c, d, e]]) 4 (fun _ => 0) =
      .ok [some a, some b, some c, some e] := by
  have hD : buildDist [[a, b, c, d, e]] =
      [((a, b), [c]), ((b, c), [d]), ((c, d), [e])] := by
    simp [buildDist, buildSong, buildLoop, distAppend, h1, h2, h3]
  refine ⟨hD, ?_⟩
  rw [hD]
  simp [generate_tokens, genLoop, pyChoice, distLookup, h1, h2, h3]

/-- Witness for C4 at the tokens `0, 1, 2, 3, 4`. -/
theorem claim_C4_witness :
    ((((0 : ℕ), (1 : ℕ)) ≠ ((1 : ℕ), (2 : ℕ)) ∧
      ((0 : ℕ), (1 : ℕ)) ≠ ((2 : ℕ), (3 : ℕ)) ∧
      ((1 : ℕ), (2 : ℕ)) ≠ ((2 : ℕ), (3 : ℕ))) ∧
      buildDist [[(0 : ℕ), 1, 2, 3, 4]] =
        [((0, 1), [2]), ((1, 2), [3]), ((2, 3), [4])]) ∧
    generate_tokens (buildDist [[(0 : ℕ), 1, 2, 3, 4]]) 4 (fun _ => 0) =
      .ok [some 0, some 1, some 2, some 4] :=
  ⟨⟨⟨by decide, by decide, by decide⟩,
      (claim_C4 0 1 2 3 4 (by decide) (by decide) (by decide)).1⟩,
    (claim_C4 0 1 2 3 4 (by decide) (by decide) (by decide)).2⟩

/-- C1 (amended): when the built Distribution has no keys, `generate_song`
always fails, but not as the claim states: with `word_count ≥ 2` the failure
is an `IndexError` from `random.choice` over the empty key list, raised at
the first iteration inside the main loop, and with `word_count ≤ 1` it is a
`TypeError` from joining the `None` flush after the loop.  The code defines
no `GenerationError` and raises two distinct built-in error kinds. -/
theorem claim_C1 (corpus : List (List Char))
    (hd : build_distribution corpus = []) (word_count : ℕ) (rand : ℕ → ℕ) :
    generate_song corpus word_count rand =
      .error (if 2 ≤ word_count then PyErr.indexError else PyErr.typeError) := by
  cases word_count with
  | zero =>
    rw [if_neg (by omega)]
    rfl
  | succ n =>
    cases n with
    | zero =>
      rw [if_neg (by omega)]
      rfl
    | succ m =>
      rw [if_pos (by omega)]
      simp [generate_song, generate_tokens, hd, genLoop, pyChoice]

/-- Witness for the amended C1 at the empty corpus with `word_count = 2`. -/
theorem claim_C1_witness :
    build_distribution ([] : List (List Char)) = [] ∧
    generate_song ([] : List (List Char)) 2 (fun _ => 0) =
      .error (if 2 ≤ 2 then PyErr.indexError else PyErr.typeError) :=
  ⟨rfl, claim_C1 [] rfl 2 (fun _ => 0)⟩

/-- Counterexample to C1 as stated: on the empty corpus (empty Distribution)
the failure is not one fixed error kind raised before the main loop —
`word_count = 1` fails with `TypeError` (after the loop, at the join) while
`word_count = 2` fails with `IndexError` (inside the loop's first iteration),
and the two kinds differ. -/
theorem claim_C1_counterexample :
    generate_song ([] : List (List Char)) 1 (fun _ => 0) =
      .error PyErr.typeError ∧
    generate_song ([] : List (List Char)) 2 (fun _ => 0) =
      .error PyErr.indexError ∧
    PyErr.typeError ≠ PyErr.indexError :=
  ⟨rfl, rfl, by decide⟩

/-- Witness for C5 at the concrete two-line text `"hi\nyo"`. -/
theorem claim_C5_witness :
    ((∀ l ∈ (['h', 'i', '\n', 'y', 'o'] : List Char).splitOn '\n',
        ¬ ∀ a ∈ l, a = ' ') ∧
      ((['h', 'i', '\n', 'y', 'o'] : List Char).splitOn '\n').getLast? ≠
        some sentinel) ∧
    decode (tokenize ['h', 'i', '\n', 'y', 'o']) = ['h', 'i', '\n', 'y', 'o'] :=
  ⟨⟨by decide, by decide⟩, claim_C5 _ (by decide) (by decide)⟩


/-- Every key component and every stored successor of `d` satisfies `T`. -/
def DSound (T : α → Prop) (d : Dist α) : Prop :=
  ∀ kv ∈ d, T kv.1.1 ∧ T kv.1.2 ∧ ∀ x ∈ kv.2, T x

lemma distAppend_sound {T : α → Prop} {d : Dist α} (hd : DSound T d)
    {k : α × α} {w : α} (hk1 : T k.1) (hk2 : T k.2) (hw : T w) :
    DSound T (distAppend d k w) := by
  induction d with
  | nil =>
    intro kv hkv
    rw [distAppend, List.mem_singleton] at hkv
    subst hkv
    exact ⟨hk1, hk2, fun x hx => (List.mem_singleton.mp hx) ▸ hw⟩
  | cons kv' rest ih =>
    obtain ⟨k', v⟩ := kv'
    intro kv hkv
    rw [distAppend] at hkv
    by_cases hk : k' = k
    · rw [if_pos hk] at hkv
      rcases List.mem_cons.mp hkv with rfl | h'
      · obtain ⟨hx1, hx2, hx3⟩ := hd _ (List.mem_cons_self _ _)
        refine ⟨hx1, hx2, fun x hx => ?_⟩
        rcases List.mem_append.mp hx with hx' | hx'
        · exact hx3 x hx'
        · exact (List.mem_singleton.mp hx') ▸ hw
      · exact hd kv (List.mem_cons_of_mem _ h')
    · rw [if_neg hk] at hkv
      rcases List.mem_cons.mp hkv with rfl | h'
      · exact hd _ (List.mem_cons_self _ _)
      · exact ih (fun kv2 h2 => hd kv2 (List.mem_cons_of_mem _ h2)) kv h'

lemma buildLoop_sound {T : α → Prop} :
    ∀ (ws : List α) (p1 p2 : α) (d : Dist α), DSound T d → T p1 → T p2 →
      (∀ w ∈ ws, T w) → DSound T (buildLoop d p1 p2 ws) := by
  intro ws
  induction ws with
  | nil =>
    intro p1 p2 d hd _ _ _
    exact hd
  | cons w rest ih =>
    intro p1 p2 d hd h1 h2 hws
    exact ih p2 w (distAppend d (p1, p2) w)
      (distAppend_sound hd h1 h2 (hws w (List.mem_cons_self _ _)))
      h2 (hws w (List.mem_cons_self _ _))
      (fun w' hw' => hws w' (List.mem_cons_of_mem _ hw'))

lemma buildSong_sound {T : α → Prop} {d : Dist α} {song : List α}
    (hd : DSound T d) (hs : ∀ w ∈ song, T w) : DSound T (buildSong d song) := by
  rcases song with _ | ⟨p1, _ | ⟨p2, _ | ⟨w, rest⟩⟩⟩
  · exact hd
  · exact hd
  · exact hd
  · exact buildLoop_sound (w :: rest) p1 p2 d hd
      (hs p1 (List.mem_cons_self _ _))
      (hs p2 (List.mem_cons_of_mem _ (List.mem_cons_self _ _)))
      (fun w' hw' => hs w' (List.mem_cons_of_mem _ (List.mem_cons_of_mem _ hw')))

lemma foldl_buildSong_sound {T : α → Prop} :
    ∀ (toks : List (List α)) (d : Dist α), DSound T d →
      (∀ s ∈ toks, ∀ w ∈ s, T w) → DSound T (toks.foldl buildSong d) := by
  intro toks
  induction toks with
  | nil =>
    intro d hd _
    exact hd
  | cons s rest ih =>
    intro d hd ht
    exact ih _ (buildSong_sound hd (ht s (List.mem_cons_self _ _)))
      (fun s' hs' => ht s' (List.mem_cons_of_mem _ hs'))

omit [DecidableEq α] in
lemma pyChoice_mem {l : List α} {r : ℕ} {x : α} (h : pyChoice l r = some x) :
    x ∈ l :=
  List.get?_mem h

omit [DecidableEq α] in
lemma songInv_append {T : α → Prop} {song : List (Option α)}
    (hsong : ∀ x, some x ∈ song → T x) {y : α} (hy : T y) :
    ∀ x, some x ∈ song ++ [some y] → T x := by
  intro x hx
  rcases List.mem_append.mp hx with hx' | hx'
  · exact hsong x hx'
  · exact (Option.some.inj (List.mem_singleton.mp hx')).symm ▸ hy

omit [DecidableEq α] in
lemma songInv_append_none {T : α → Prop} {song : List (Option α)}
    (hsong : ∀ x, some x ∈ song → T x) :
    ∀ x, some x ∈ song ++ [none] → T x := by
  intro x hx
  rcases List.mem_append.mp hx with hx' | hx'
  · exact hsong x hx'
  · simp at hx'

/-- Walk soundness: when the pending words, the accumulated song, the key
list and the distribution only hold `T`-tokens, every token of a completed
walk satisfies `T`. -/
lemma genLoop_sound {T : α → Prop} (dist : Dist α) (pairs : List (α × α))
    (rand : ℕ → ℕ) (hpairs : ∀ p ∈ pairs, T p.1 ∧ T p.2)
    (hdist : DSound T dist) :
    ∀ (fuel n : ℕ) (w1? w2? : Option α) (song out : List (Option α)),
      (∀ x, w1? = some x → T x) → (∀ x, w2? = some x → T x) →
      (∀ x, some x ∈ song → T x) →
      genLoop dist pairs rand fuel n w1? w2? song = .ok out →
      ∀ x, some x ∈ out → T x := by
  intro fuel
  induction fuel with
  | zero =>
    intro n w1? w2? song out _ h2 hsong h
    simp only [genLoop, Except.ok.injEq] at h
    subst h
    intro x hx
    rcases List.mem_append.mp hx with hx' | hx'
    · exact hsong x hx'
    · exact h2 x (List.mem_singleton.mp hx').symm
  | succ fuel ih =>
    intro n w1? w2? song out h1 h2 hsong h
    cases w1? with
    | none =>
      cases hc : pyChoice pairs (rand n) with
      | none => simp [genLoop, hc] at h
      | some p =>
        simp only [genLoop, hc] at h
        have hp := hpairs p (pyChoice_mem hc)
        cases hl : distLookup dist (p.1, p.2) with
        | none =>
          simp only [hl] at h
          exact ih _ _ _ _ _ (fun x hx => Option.noConfusion hx)
            (fun x hx => (Option.some.inj hx) ▸ hp.2)
            (songInv_append (songInv_append hsong hp.1) hp.2) h
        | some succs =>
          cases hp' : pyChoice succs (rand (n + 1)) with
          | none => simp [hl, hp'] at h
          | some w =>
            simp only [hl, hp'] at h
            have hw : T w :=
              (hdist _ (distLookup_mem hl)).2.2 w (pyChoice_mem hp')
            exact ih _ _ _ _ _ (fun x hx => (Option.some.inj hx) ▸ hp.2)
              (fun x hx => (Option.some.inj hx) ▸ hw)
              (songInv_append hsong hp.1) h
    | some w1 =>
      have hw1 : T w1 := h1 w1 rfl
      simp only [genLoop] at h
      cases w2? with
      | none =>
        exact ih _ _ _ _ _ (fun x hx => Option.noConfusion hx) (fun x hx => Option.noConfusion hx)
          (songInv_append_none (songInv_append hsong hw1)) h
      | some w2 =>
        have hw2 : T w2 := h2 w2 rfl
        cases hl : distLookup dist (w1, w2) with
        | none =>
          simp only [hl] at h
          exact ih _ _ _ _ _ (fun x hx => Option.noConfusion hx)
            (fun x hx => (Option.some.inj hx) ▸ hw2)
            (songInv_append (songInv_append hsong hw1) hw2) h
        | some succs =>
          cases hp' : pyChoice succs (rand n) with
          | none => simp [hl, hp'] at h
          | some w =>
            simp only [hl, hp'] at h
            have hw : T w :=
              (hdist _ (distLookup_mem hl)).2.2 w (pyChoice_mem hp')
            exact ih _ _ _ _ _ (fun x hx => (Option.some.inj hx) ▸ hw2)
              (fun x hx => (Option.some.inj hx) ▸ hw)
              (songInv_append hsong hw1) h

/-- C10: every token emitted by a completed walk occurs in the space-split
token sequence of some song of the corpus, because each emitted token is a
component of a chosen PairKey or a sampled successor. -/
theorem claim_C10 (corpus : List (List Char)) (word_count : ℕ) (rand : ℕ → ℕ)
    (out : List (Option (List Char))) (_hwc : 2 ≤ word_count)
    (h : generate_tokens (build_distribution corpus) word_count rand = .ok out) :
    ∀ t, some t ∈ out → ∃ song ∈ corpus, t ∈ song.splitOn ' ' := by
  have hdist : DSound (fun t => ∃ song ∈ corpus, t ∈ song.splitOn ' ')
      (build_distribution corpus) := by
    apply foldl_buildSong_sound _ _ (fun kv hkv => by simp at hkv)
    intro s hs w hw
    obtain ⟨song, hsong, rfl⟩ := List.mem_map.mp hs
    exact ⟨song, hsong, hw⟩
  have hpairs : ∀ p ∈ (build_distribution corpus).map Prod.fst,
      (∃ song ∈ corpus, p.1 ∈ song.splitOn ' ') ∧
      (∃ song ∈ corpus, p.2 ∈ song.splitOn ' ') := by
    intro p hp
    obtain ⟨kv, hkv, rfl⟩ := List.mem_map.mp hp
    exact ⟨(hdist kv hkv).1, (hdist kv hkv).2.1⟩
  exact genLoop_sound _ _ _ hpairs hdist (word_count - 1) 0 none none [] out
    (fun x hx => Option.noConfusion hx) (fun x hx => Option.noConfusion hx)
    (fun x hx => by simp at hx) h

/-- Witness for C10 at the corpus `["a b c"]` with `word_count = 2`. -/
theorem claim_C10_witness :
    (2 ≤ 2 ∧
      generate_tokens (build_distribution [['a', ' ', 'b', ' ', 'c']]) 2
        (fun _ => 0) = .ok [some ['a'], some ['c']]) ∧
    (∀ t, some t ∈ [some ['a'], some ['c']] →
      ∃ song ∈ [['a', ' ', 'b', ' ', 'c']], t ∈ song.splitOn ' ') :=
  ⟨⟨by decide, rfl⟩,
    claim_C10 [['a', ' ', 'b', ' ', 'c']] 2 (fun _ => 0)
      [some ['a'], some ['c']] (by decide) rfl⟩


end Parrot
